import Mathlib

/-!
Verification of the field-extraction core of meu_extrator.py (Automacao-TJRN).

The source operates on Python strings; here text is modelled as `List Char`.
Character classification tables (`pyLower`, `pyIsSpaceChar`, `isWordChar`,
`isLineBoundaryChar`) are transcribed from CPython semantics for the ASCII and
Latin-1 range, which is the alphabet of the regexes and string literals in the
source; code points outside that range are treated as plain non-word,
non-space characters.

Regular expressions in the source are simple enough that greedy matching with
backtracking collapses to deterministic scans built from `takeWhile` and
`dropWhile`; each `match...At` definition below embeds one of the five regex
patterns of the source, position by position, and the comments record the
backtracking analysis that justifies each deterministic step.
-/

namespace TJRN

/-- ASCII decimal digit, the characters matched by the patterns `\d` and
`[0-9]` of the source over this corpus. -/
def isDigitChar (c : Char) : Bool :=
  decide (48 ≤ c.toNat ∧ c.toNat ≤ 57)

/-- Whitespace in the sense of both Python `str.isspace`, `str.strip`,
`str.split` and the regex class `\s` (Unicode mode): ASCII space controls,
NEL, NBSP and the Unicode space separators. -/
def pyIsSpaceChar (c : Char) : Bool :=
  decide (c.toNat = 32 ∨ (9 ≤ c.toNat ∧ c.toNat ≤ 13) ∨
    (28 ≤ c.toNat ∧ c.toNat ≤ 31) ∨ c.toNat = 133 ∨ c.toNat = 160 ∨
    c.toNat = 0x1680 ∨ (0x2000 ≤ c.toNat ∧ c.toNat ≤ 0x200a) ∨
    c.toNat = 0x2028 ∨ c.toNat = 0x2029 ∨ c.toNat = 0x202f ∨
    c.toNat = 0x205f ∨ c.toNat = 0x3000)

/-- Line boundaries recognised by Python `str.splitlines`. -/
def isLineBoundaryChar (c : Char) : Bool :=
  decide (c.toNat = 10 ∨ c.toNat = 11 ∨ c.toNat = 12 ∨ c.toNat = 13 ∨
    c.toNat = 28 ∨ c.toNat = 29 ∨ c.toNat = 30 ∨ c.toNat = 133 ∨
    c.toNat = 0x2028 ∨ c.toNat = 0x2029)

/-- Word characters for the regex `\b` (Unicode mode), over the ASCII and
Latin-1 range: alphanumerics, underscore, ordinal indicators, micro sign,
superscripts, vulgar fractions and the Latin-1 letters. -/
def isWordChar (c : Char) : Bool :=
  let n := c.toNat
  decide ((48 ≤ n ∧ n ≤ 57) ∨ (65 ≤ n ∧ n ≤ 90) ∨ (97 ≤ n ∧ n ≤ 122) ∨
    n = 95 ∨ n = 0xAA ∨ n = 0xB2 ∨ n = 0xB3 ∨ n = 0xB5 ∨ n = 0xB9 ∨
    n = 0xBA ∨ n = 0xBC ∨ n = 0xBD ∨ n = 0xBE ∨
    (0xC0 ≤ n ∧ n ≤ 0xFF ∧ n ≠ 0xD7 ∧ n ≠ 0xF7))

/-- Python `str.lower`, also the case folding used by `re.IGNORECASE`, over
the ASCII and Latin-1 range (uppercase letters map 32 code points up, the
multiplication sign is not a letter). -/
def pyLower (c : Char) : Char :=
  let n := c.toNat
  if 65 ≤ n ∧ n ≤ 90 then Char.ofNat (n + 32)
  else if 192 ≤ n ∧ n ≤ 222 ∧ n ≠ 215 then Char.ofNat (n + 32)
  else c

/-- The value class `[\d\.\-\/]` of the matricula pattern, identical to the
class `[0-9\/\.\-]` of the processo pattern. -/
def isNumPunct (c : Char) : Bool :=
  isDigitChar c || c == '.' || c == '-' || c == '/'

/-- The class `[:\s]` of the primary matricula pattern. -/
def isSepChar (c : Char) : Bool :=
  c == ':' || pyIsSpaceChar c

/-- The month-name class `[a-zçõéêáíúâó]` under `re.IGNORECASE`: a character
matches when its lowercased form is in the class. -/
def isMonthChar (c : Char) : Bool :=
  let l := pyLower c
  decide (97 ≤ l.toNat ∧ l.toNat ≤ 122) || l == 'ç' || l == 'õ' || l == 'é' ||
    l == 'ê' || l == 'á' || l == 'í' || l == 'ú' || l == 'â' || l == 'ó'

/-- Word-character test on an optional character, treating the absent
character at either end of the text as a non-word character. -/
def isWordOpt : Option Char → Bool
  | none => false
  | some c => isWordChar c

/-- The regex word boundary `\b` between an optional previous character and
an optional next character. -/
def atBoundary (prev next : Option Char) : Bool :=
  isWordOpt prev != isWordOpt next

/-- Case-insensitive literal match at the start of the text: true when the
text begins with the (pre-lowercased) pattern under `pyLower` folding. -/
def ciStartsWith (pat s : List Char) : Bool :=
  (s.take pat.length).map pyLower == pat

/-- Python `str.strip` with no argument: remove leading and trailing
whitespace. -/
def pyStrip (l : List Char) : List Char :=
  ((l.dropWhile pyIsSpaceChar).reverse.dropWhile pyIsSpaceChar).reverse

/-- Worker for `pySplitlines`; `cur` accumulates the current line reversed.
A carriage return directly followed by a newline counts as one boundary and
a trailing boundary does not open a new line, following Python. -/
def splitlinesAux (cur : List Char) : List Char → List (List Char)
  | [] => [cur.reverse]
  | '\r' :: '\n' :: t =>
    if t.isEmpty then [cur.reverse] else cur.reverse :: splitlinesAux [] t
  | c :: t =>
    if isLineBoundaryChar c then
      if t.isEmpty then [cur.reverse] else cur.reverse :: splitlinesAux [] t
    else splitlinesAux (c :: cur) t

/-- Python `str.splitlines`. -/
def pySplitlines (s : List Char) : List (List Char) :=
  if s.isEmpty then [] else splitlinesAux [] s

/-- Python `str.split` with no argument: maximal runs of non-whitespace. -/
def pySplitWs : List Char → List (List Char)
  | [] => []
  | c :: t =>
    if pyIsSpaceChar c then pySplitWs t
    else (c :: t.takeWhile (fun d => !pyIsSpaceChar d)) ::
      pySplitWs (t.dropWhile (fun d => !pyIsSpaceChar d))
termination_by l => l.length
decreasing_by
  all_goals simp only [List.length_cons]
  · exact Nat.lt_succ_of_le (Nat.le_refl _)
  · exact Nat.lt_succ_of_le (List.dropWhile_suffix _).length_le

/-- Python `" ".join`. -/
def joinSpace : List (List Char) → List Char
  | [] => []
  | [w] => w
  | w :: ws => w ++ ' ' :: joinSpace ws

/-- Python `str.find`: index of the first occurrence of the needle, `none`
standing for the -1 of the source. -/
def strFindAux (needle : List Char) : Nat → List Char → Option Nat
  | i, [] => if needle.isEmpty then some i else none
  | i, c :: t =>
    if needle.isPrefixOf (c :: t) then some i else strFindAux needle (i + 1) t

/-- The loop `for line in snippet.splitlines(): if line.strip(): return
line.strip()` of find_label_value. -/
def firstNonBlankLine : List (List Char) → Option (List Char)
  | [] => none
  | l :: ls =>
    if (pyStrip l).isEmpty then firstNonBlankLine ls else some (pyStrip l)

/-- `re.search` for patterns without `\b`: try the match function at every
position, leftmost success wins. -/
def pySearchList (f : List Char → Option (List Char)) : List Char → Option (List Char)
  | [] => f []
  | c :: rest =>
    match f (c :: rest) with
    | some g => some g
    | none => pySearchList f rest

/-- Worker for `re.finditer`: scan position by position, skipping the
interior of each reported match (`skip` counts positions still covered by
the previous match), threading the previous character for `\b`. -/
def fiAux (f : Option Char → List Char → Option (List Char)) :
    Nat → Nat → Option Char → List Char → List (Nat × List Char)
  | _, _, _, [] => []
  | 0, pos, prev, c :: rest =>
    match f prev (c :: rest) with
    | none => fiAux f 0 (pos + 1) (some c) rest
    | some m => (pos, m) :: fiAux f (max 1 m.length - 1) (pos + 1) (some c) rest
  | skip + 1, pos, _, c :: rest => fiAux f skip (pos + 1) (some c) rest

/-- `re.finditer`: all non-overlapping matches with their start offsets. -/
def pyFinditer (f : Option Char → List Char → Option (List Char))
    (text : List Char) : List (Nat × List Char) :=
  fiAux f 0 0 none text

/-- One comparison step of Python `max(l, key=key)`: keep the current best
unless a strictly greater key appears. -/
def maxStep (key : α → Nat) (b y : α) : α :=
  if key b < key y then y else b

/-- Python `max(l, key=key)` on a possibly empty list: `none` on the empty
list, else the first element attaining the maximal key. -/
def pyMax (key : α → Nat) : List α → Option α
  | [] => none
  | x :: xs => some (xs.foldl (maxStep key) x)

/-- The match function fails at every position of the text (used to state
when a finditer scan is empty). -/
def noMatchBelow (f : Option Char → List Char → Option (List Char)) :
    Option Char → List Char → Prop
  | _, [] => True
  | prev, c :: rest => f prev (c :: rest) = none ∧ noMatchBelow f (some c) rest

/-- The match function fails at every suffix (used to state when a
`pySearchList` scan is `none`). -/
def failsEverywhere (f : List Char → Option (List Char)) : List Char → Prop
  | [] => f [] = none
  | c :: rest => f (c :: rest) = none ∧ failsEverywhere f rest

/-! ### The regex match functions of the source, one position at a time -/

/-- The pattern `Matr[ií]cula[:\s]*([\d\.\-\/]+)` with `re.IGNORECASE`,
anchored at the current position; returns the captured group. The greedy
`[:\s]*` never backtracks because the separator class and the value class
are disjoint. -/
def matchMatricula1At (s : List Char) : Option (List Char) :=
  if ciStartsWith "matr".data s then
    match s.drop 4 with
    | [] => none
    | c :: r0 =>
      if (pyLower c == 'i' || pyLower c == 'í') && ciStartsWith "cula".data r0 then
        let v := ((r0.drop 4).dropWhile isSepChar).takeWhile isNumPunct
        if v.isEmpty then none else some v
      else none
  else none

/-- The fallback pattern `Matr[ií]cula\s+([\d\.\-\/]+)` with
`re.IGNORECASE`, anchored at the current position. The greedy `\s+` never
backtracks usefully: a shorter run leaves a whitespace character where the
value class, which contains no whitespace, must match. -/
def matchMatricula2At (s : List Char) : Option (List Char) :=
  if ciStartsWith "matr".data s then
    match s.drop 4 with
    | [] => none
    | c :: r0 =>
      if (pyLower c == 'i' || pyLower c == 'í') && ciStartsWith "cula".data r0 then
        let r := r0.drop 4
        if (r.takeWhile pyIsSpaceChar).isEmpty then none
        else
          let v := (r.dropWhile pyIsSpaceChar).takeWhile isNumPunct
          if v.isEmpty then none else some v
      else none
  else none

/-- The tail `\s*([0-9\/\.\-]{4,25})` of the processo pattern: greedy
whitespace, then a greedy capped run of the value class, at least 4 long. -/
def procTail (r : List Char) : Option (List Char) :=
  let v := (r.dropWhile pyIsSpaceChar).takeWhile isNumPunct
  if 4 ≤ v.length then some (v.take 25) else none

/-- First alternative `\s*N[ºo]` of the optional group of the processo
pattern, under `re.IGNORECASE`; returns the rest of the text. -/
def altNOrd (r : List Char) : Option (List Char) :=
  match r.dropWhile pyIsSpaceChar with
  | c :: d :: rest =>
    if pyLower c == 'n' && (pyLower d == 'º' || pyLower d == 'o') then some rest
    else none
  | _ => none

/-- Second alternative `\s*N\.º` of the optional group. -/
def altNDot (r : List Char) : Option (List Char) :=
  match r.dropWhile pyIsSpaceChar with
  | c :: d :: e :: rest =>
    if pyLower c == 'n' && d == '.' && pyLower e == 'º' then some rest else none
  | _ => none

/-- Third alternative `:` of the optional group. -/
def altColon : List Char → Option (List Char)
  | ':' :: rest => some rest
  | _ => none

/-- The pattern `Processo(?:\s*N[ºo]|\s*N\.º|:)?\s*([0-9\/\.\-]{4,25})` with
`re.IGNORECASE`, anchored at the current position; returns the captured
group. The alternatives of the optional group are tried left to right and
the group is skipped last, exactly the backtracking order of the engine. -/
def matchProcessoAt (s : List Char) : Option (List Char) :=
  if ciStartsWith "processo".data s then
    let r := s.drop 8
    match (altNOrd r).bind procTail with
    | some g => some g
    | none =>
      match (altNDot r).bind procTail with
      | some g => some g
      | none =>
        match (altColon r).bind procTail with
        | some g => some g
        | none => procTail r
  else none

/-- The long-form date pattern
`\b\d{1,2}\s+de\s+[a-zçõéêáíúâó]+\s+de\s+\d{4}\b` with `re.IGNORECASE`,
anchored between `prev` and `s`; returns the matched text. Greediness is
deterministic throughout: each quantified class is disjoint from what must
follow it, a digit run longer than 2 kills both day widths, and a year run
other than exactly 4 digits kills the final `\d{4}\b`. -/
def matchDateLongAt (prev : Option Char) (s : List Char) : Option (List Char) :=
  if atBoundary prev s.head? then
    let ds := s.takeWhile isDigitChar
    if 1 ≤ ds.length && ds.length ≤ 2 then
      let r1 := s.drop ds.length
      let w1 := r1.takeWhile pyIsSpaceChar
      let r1b := r1.drop w1.length
      if !w1.isEmpty && ciStartsWith "de".data r1b then
        let de1 := r1b.take 2
        let r2 := r1b.drop 2
        let w2 := r2.takeWhile pyIsSpaceChar
        let r2b := r2.drop w2.length
        let mon := r2b.takeWhile isMonthChar
        if !w2.isEmpty && !mon.isEmpty then
          let r3 := r2b.drop mon.length
          let w3 := r3.takeWhile pyIsSpaceChar
          let r3b := r3.drop w3.length
          if !w3.isEmpty && ciStartsWith "de".data r3b then
            let de2 := r3b.take 2
            let r4 := r3b.drop 2
            let w4 := r4.takeWhile pyIsSpaceChar
            let r4b := r4.drop w4.length
            let ys := r4b.takeWhile isDigitChar
            if !w4.isEmpty && ys.length == 4 && !isWordOpt (r4b.drop 4).head? then
              some (ds ++ w1 ++ de1 ++ w2 ++ mon ++ w3 ++ de2 ++ w4 ++ ys)
            else none
          else none
        else none
      else none
    else none
  else none

/-- The numeric date pattern `\b\d{2}/\d{2}/\d{4}\b`, anchored between
`prev` and `s`; returns the matched text. -/
def matchDDMMAt (prev : Option Char) (s : List Char) : Option (List Char) :=
  if atBoundary prev s.head? then
    match s with
    | a :: b :: '/' :: c :: d :: '/' :: e :: f :: g :: k :: rest =>
      if isDigitChar a && isDigitChar b && isDigitChar c && isDigitChar d &&
          isDigitChar e && isDigitChar f && isDigitChar g && isDigitChar k &&
          !isWordOpt rest.head? then
        some [a, b, '/', c, d, '/', e, f, g, k]
      else none
    | _ => none
  else none

/-- The fallback token pattern `\b\d{3,8}(?:/\d{2,4})?\b`, anchored between
`prev` and `s`; returns the matched token. When the optional `/\d{2,4}`
part cannot complete, the engine drops the group and the trailing `\b`
holds against the `/`, so the bare digit run is the match. -/
def matchTokenAt (prev : Option Char) (s : List Char) : Option (List Char) :=
  if atBoundary prev s.head? then
    let ds := s.takeWhile isDigitChar
    if 3 ≤ ds.length && ds.length ≤ 8 then
      match s.drop ds.length with
      | '/' :: r2 =>
        let qs := r2.takeWhile isDigitChar
        if 2 ≤ qs.length && qs.length ≤ 4 && !isWordOpt (r2.drop qs.length).head?
        then some (ds ++ '/' :: qs)
        else some ds
      | rest => if !isWordOpt rest.head? then some ds else none
    else none
  else none

/-! ### The extractors of the source -/

/-- find_label_value of the source: locate the lowercased label followed by
a colon in the lowercased text, take `maxChars` characters after it, return
the first non-blank line stripped, else the whitespace-collapsed window, or
`none` when that is empty or the label never occurs. -/
def find_label_value (text label : List Char) (maxChars : Nat) : Option (List Char) :=
  let lbl := label.map pyLower ++ [':']
  match strFindAux lbl 0 (text.map pyLower) with
  | none => none
  | some i =>
    let snippet := (text.drop (i + lbl.length)).take maxChars
    match firstNonBlankLine (pySplitlines snippet) with
    | some v => some v
    | none =>
      let j := pyStrip (joinSpace (pySplitWs snippet))
      if j.isEmpty then none else some j

/-- extract_matricula of the source: primary pattern, then the looser
fallback pattern, the captured group stripped. -/
def extract_matricula (text : List Char) : Option (List Char) :=
  match pySearchList matchMatricula1At text with
  | some g => some (pyStrip g)
  | none =>
    match pySearchList matchMatricula2At text with
    | some g => some (pyStrip g)
    | none => none

/-- The variant of extract_matricula that uses only the primary pattern
(for the subsumption claim about the fallback). -/
def extractMatriculaPrimary (text : List Char) : Option (List Char) :=
  match pySearchList matchMatricula1At text with
  | some g => some (pyStrip g)
  | none => none

/-- The loop `for t in tokens: if "/" in t: return t` of
extract_numero_processo. -/
def firstSlash : List (List Char) → Option (List Char)
  | [] => none
  | t :: ts => if t.contains '/' then some t else firstSlash ts

/-- The token list `re.findall(r'\b\d{3,8}(?:/\d{2,4})?\b', text)`. -/
def tokensOf (text : List Char) : List (List Char) :=
  (pyFinditer matchTokenAt text).map Prod.snd

/-- extract_numero_processo of the source: primary Processo pattern (group
stripped), else the first slash-bearing fallback token, else the longest
fallback token (Python max keeps the earliest on ties), else `none`. -/
def extract_numero_processo (text : List Char) : Option (List Char) :=
  match pySearchList matchProcessoAt text with
  | some g => some (pyStrip g)
  | none =>
    let toks := tokensOf text
    if toks.isEmpty then none
    else
      match firstSlash toks with
      | some t => some t
      | none => pyMax List.length toks

/-- The candidate list of extract_last_date: all long-form matches, then all
numeric matches, each with its start offset, the text stripped on append. -/
def dateCandidates (text : List Char) : List (Nat × List Char) :=
  (pyFinditer matchDateLongAt text).map (fun q => (q.1, pyStrip q.2)) ++
    (pyFinditer matchDDMMAt text).map (fun q => (q.1, pyStrip q.2))

/-- extract_last_date of the source: the candidate with the maximal start
offset, or `none` when there is no candidate. -/
def extract_last_date (text : List Char) : Option (List Char) :=
  match pyMax (fun q => q.1) (dateCandidates text) with
  | none => none
  | some last => some last.2

/-! ### The folder processor -/

/-- One output row; the source builds success rows without the error key,
modelled here as `error = none`. -/
structure ExtractionResult where
  processo : Option (List Char)
  data_autuacao : Option (List Char)
  requerente : Option (List Char)
  matricula : Option (List Char)
  error : Option (List Char)
deriving DecidableEq

/-- The per-document body of the process_folder loop. Text extraction is an
external collaborator that either yields the document text or raises; the
try block of the source maps a raised exception to an all-none row carrying
the exception description. -/
def processDocument : Except (List Char) (List Char) → ExtractionResult
  | Except.ok txt =>
    { processo := extract_numero_processo txt
      data_autuacao := extract_last_date txt
      requerente := find_label_value txt "Requerente".data 300
      matricula := extract_matricula txt
      error := none }
  | Except.error e =>
    { processo := none, data_autuacao := none, requerente := none
      matricula := none, error := some e }

/-- process_folder of the source: one row per document, in order. -/
def process_folder (docs : List (Except (List Char) (List Char))) :
    List ExtractionResult :=
  docs.map processDocument

/-! ### Definitions written from the words of the specification, for the
refinement-style claims -/

/-- Modelled from the claim wording: the first position where the label
followed by a colon occurs case-insensitively, found by comparing a
lowercased window at each position. -/
def specFirstOcc (lbl : List Char) : Nat → List Char → Option Nat
  | i, [] => if lbl.isEmpty then some i else none
  | i, c :: t =>
    if ((c :: t).take lbl.length).map pyLower == lbl then some i
    else specFirstOcc lbl (i + 1) t

/-- The Label Value Extractor as the claim describes it: first
case-insensitive occurrence of the label and colon, a 300-character window,
the first non-blank line trimmed, else the window with all whitespace
collapsed to single spaces, `none` when that is empty or the label is
absent. -/
def specLabelValue (text label : List Char) : Option (List Char) :=
  let lbl := label.map pyLower ++ [':']
  match specFirstOcc lbl 0 text with
  | none => none
  | some i =>
    let window := (text.drop (i + lbl.length)).take 300
    match (pySplitlines window).find? (fun l => !(pyStrip l).isEmpty) with
    | some l => some (pyStrip l)
    | none =>
      let collapsed := joinSpace (pySplitWs window)
      if collapsed.isEmpty then none else some collapsed

/-- Output shape required of every extractor: `none`, or a non-empty string
without leading or trailing whitespace. -/
def optOk (r : Option (List Char)) : Prop :=
  ∀ s, r = some s → s ≠ [] ∧ pyStrip s = s

/-! ### Character class facts -/

theorem isNumPunct_not_space {c : Char} (h : isNumPunct c = true) :
    pyIsSpaceChar c = false := by
  simp only [isNumPunct, isDigitChar, Bool.or_eq_true, decide_eq_true_eq,
    beq_iff_eq] at h
  have hn : (48 ≤ c.toNat ∧ c.toNat ≤ 57) ∨ c.toNat = 46 ∨ c.toNat = 45 ∨
      c.toNat = 47 := by
    rcases h with ((h | h) | h) | h
    · exact Or.inl h
    · exact Or.inr (Or.inl (by rw [h]; rfl))
    · exact Or.inr (Or.inr (Or.inl (by rw [h]; rfl)))
    · exact Or.inr (Or.inr (Or.inr (by rw [h]; rfl)))
  simp only [pyIsSpaceChar, decide_eq_false_iff_not]
  omega

theorem isDigitChar_not_space {c : Char} (h : isDigitChar c = true) :
    pyIsSpaceChar c = false := by
  simp only [isDigitChar, decide_eq_true_eq] at h
  simp only [pyIsSpaceChar, decide_eq_false_iff_not]
  omega

theorem slash_not_space : pyIsSpaceChar '/' = false := by decide

theorem isNumPunct_not_sep {c : Char} (h : isNumPunct c = true) :
    isSepChar c = false := by
  simp only [isNumPunct, isDigitChar, Bool.or_eq_true, decide_eq_true_eq,
    beq_iff_eq] at h
  have hn : (48 ≤ c.toNat ∧ c.toNat ≤ 57) ∨ c.toNat = 46 ∨ c.toNat = 45 ∨
      c.toNat = 47 := by
    rcases h with ((h | h) | h) | h
    · exact Or.inl h
    · exact Or.inr (Or.inl (by rw [h]; rfl))
    · exact Or.inr (Or.inr (Or.inl (by rw [h]; rfl)))
    · exact Or.inr (Or.inr (Or.inr (by rw [h]; rfl)))
  have hne : ¬ c = ':' := by
    intro hc; rw [hc] at hn; exact absurd hn (by decide)
  simp only [isSepChar, Bool.or_eq_false_iff, beq_eq_false_iff_ne, ne_eq]
  refine ⟨hne, ?_⟩
  simp only [pyIsSpaceChar, decide_eq_false_iff_not]
  omega

theorem space_isSep {c : Char} (h : pyIsSpaceChar c = true) :
    isSepChar c = true := by
  simp [isSepChar, h]

/-! ### takeWhile, dropWhile and strip helpers -/

theorem takeWhile_append_all {p : Char → Bool} {w t : List Char}
    (hw : ∀ c ∈ w, p c = true)
    (ht : t = [] ∨ ∃ c t2, t = c :: t2 ∧ p c = false) :
    (w ++ t).takeWhile p = w := by
  induction w with
  | nil =>
    simp only [List.nil_append]
    rcases ht with rfl | ⟨c, t2, rfl, hc⟩
    · rfl
    · simp [List.takeWhile_cons, hc]
  | cons a w ih =>
    have ha : p a = true := hw a (by simp)
    simp only [List.cons_append, List.takeWhile_cons, ha, if_true]
    rw [ih (fun c hc => hw c (by simp [hc]))]

theorem dropWhile_append_all {p : Char → Bool} {w t : List Char}
    (hw : ∀ c ∈ w, p c = true)
    (ht : t = [] ∨ ∃ c t2, t = c :: t2 ∧ p c = false) :
    (w ++ t).dropWhile p = t := by
  induction w with
  | nil =>
    simp only [List.nil_append]
    rcases ht with rfl | ⟨c, t2, rfl, hc⟩
    · rfl
    · simp [List.dropWhile_cons, hc]
  | cons a w ih =>
    have ha : p a = true := hw a (by simp)
    simp only [List.cons_append, List.dropWhile_cons, ha, if_true]
    exact ih (fun c hc => hw c (by simp [hc]))

/-- Enlarging the predicate does not change `dropWhile` when the first
surviving element already fails the larger predicate. -/
theorem dropWhile_of_le {p q : Char → Bool} {l : List Char}
    (hpq : ∀ c, p c = true → q c = true)
    (hh : ∀ c t, l.dropWhile p = c :: t → q c = false) :
    l.dropWhile q = l.dropWhile p := by
  induction l with
  | nil => rfl
  | cons a l ih =>
    by_cases ha : p a = true
    · rw [List.dropWhile_cons_of_pos ha, List.dropWhile_cons_of_pos (hpq a ha)]
      exact ih (by simpa [List.dropWhile_cons_of_pos ha] using hh)
    · have hd : (a :: l).dropWhile p = a :: l :=
        List.dropWhile_cons_of_neg ha
      have hqa : q a = false := hh a l hd
      rw [hd, List.dropWhile_cons_of_neg (by simp [hqa])]

theorem pyStrip_nil : pyStrip [] = [] := rfl

theorem pyStrip_eq_rdropWhile (l : List Char) :
    pyStrip l = List.rdropWhile pyIsSpaceChar (l.dropWhile pyIsSpaceChar) := rfl

/-- The first element surviving `dropWhile` fails the predicate. -/
theorem dropWhile_head_false {α : Type} {p : α → Bool} {l : List α} {c : α}
    {t : List α} (h : l.dropWhile p = c :: t) : p c = false := by
  have hkey := List.head?_dropWhile_not p l
  rw [h] at hkey
  simpa using hkey

theorem pyStrip_idem (l : List Char) : pyStrip (pyStrip l) = pyStrip l := by
  rw [pyStrip_eq_rdropWhile, pyStrip_eq_rdropWhile]
  have h1 : (List.rdropWhile pyIsSpaceChar (l.dropWhile pyIsSpaceChar)).dropWhile
      pyIsSpaceChar = List.rdropWhile pyIsSpaceChar (l.dropWhile pyIsSpaceChar) := by
    cases hR : List.rdropWhile pyIsSpaceChar (l.dropWhile pyIsSpaceChar) with
    | nil => rfl
    | cons c t =>
      have hpre : List.rdropWhile pyIsSpaceChar (l.dropWhile pyIsSpaceChar) <+:
          l.dropWhile pyIsSpaceChar := List.rdropWhile_prefix _ _
      rw [hR] at hpre
      rcases hpre with ⟨tail, htail⟩
      have hc : pyIsSpaceChar c = false :=
        dropWhile_head_false (l := l) (by rw [← htail]; rfl)
      rw [List.dropWhile_cons_of_neg (by simp [hc])]
  rw [h1, List.rdropWhile_idempotent]

theorem pyStrip_of_not_space {l : List Char}
    (h : ∀ c ∈ l, pyIsSpaceChar c = false) : pyStrip l = l := by
  rw [pyStrip_eq_rdropWhile]
  have h1 : l.dropWhile pyIsSpaceChar = l := by
    cases l with
    | nil => rfl
    | cons a t => exact List.dropWhile_cons_of_neg (by simp [h a (by simp)])
  rw [h1, List.rdropWhile_eq_self_iff]
  intro hl hsp
  have := h (l.getLast hl) (List.getLast_mem hl)
  simp [this] at hsp

/-! ### Search, finditer and max lemmas -/

theorem pySearchList_eq_none_iff (f : List Char → Option (List Char)) :
    ∀ l, pySearchList f l = none ↔ failsEverywhere f l
  | [] => by simp [pySearchList, failsEverywhere]
  | c :: rest => by
    rw [pySearchList, failsEverywhere]
    cases h : f (c :: rest) with
    | some g => simp [h]
    | none => simpa [h] using pySearchList_eq_none_iff f rest

theorem pySearchList_some {f : List Char → Option (List Char)} :
    ∀ {l g}, pySearchList f l = some g → ∃ t, f t = some g
  | [], g, h => ⟨[], h⟩
  | c :: rest, g, h => by
    rw [pySearchList] at h
    cases hf : f (c :: rest) with
    | some m => rw [hf] at h; exact ⟨c :: rest, by rw [hf, ← h]⟩
    | none => rw [hf] at h; exact pySearchList_some h

theorem pySearchList_append_none {f : List Char → Option (List Char)} :
    ∀ {pre x : List Char}, (∀ i < pre.length, f ((pre ++ x).drop i) = none) →
      pySearchList f (pre ++ x) = pySearchList f x
  | [], x, _ => rfl
  | c :: pre, x, h => by
    have h0 : f (c :: (pre ++ x)) = none := by
      have := h 0 (by simp)
      simpa using this
    rw [List.cons_append, pySearchList, h0]
    exact pySearchList_append_none (fun i hi => by
      have := h (i + 1) (by simp; omega)
      simpa using this)

theorem fiAux_eq_nil_iff (f : Option Char → List Char → Option (List Char)) :
    ∀ l pos prev, fiAux f 0 pos prev l = [] ↔ noMatchBelow f prev l
  | [], _, _ => by simp [fiAux, noMatchBelow]
  | c :: rest, pos, prev => by
    rw [fiAux, noMatchBelow]
    cases h : f prev (c :: rest) with
    | some m => simp [h]
    | none => simpa [h] using fiAux_eq_nil_iff f rest (pos + 1) (some c)

theorem fiAux_mem (f : Option Char → List Char → Option (List Char)) :
    ∀ l skip pos prev p m, (p, m) ∈ fiAux f skip pos prev l →
      ∃ pr t, f pr t = some m
  | [], _, _, _, _, _, h => by simp [fiAux] at h
  | c :: rest, 0, pos, prev, p, m, h => by
    rw [fiAux] at h
    cases hf : f prev (c :: rest) with
    | none =>
      rw [hf] at h
      exact fiAux_mem f rest 0 (pos + 1) (some c) p m h
    | some g =>
      rw [hf] at h
      rcases List.mem_cons.mp h with heq | hmem
      · exact ⟨prev, c :: rest, by rw [hf]; rw [(Prod.mk.injEq _ _ _ _).mp heq |>.2]⟩
      · exact fiAux_mem f rest _ (pos + 1) (some c) p m hmem
  | c :: rest, skip + 1, pos, prev, p, m, h => by
    rw [fiAux] at h
    exact fiAux_mem f rest skip (pos + 1) (some c) p m h

theorem foldl_maxStep_ge {α : Type} (key : α → Nat) :
    ∀ (xs : List α) (b : α), key b ≤ key (xs.foldl (maxStep key) b)
  | [], _ => Nat.le_refl _
  | y :: ys, b => by
    rw [List.foldl_cons]
    refine Nat.le_trans ?_ (foldl_maxStep_ge key ys (maxStep key b y))
    unfold maxStep
    split
    · omega
    · exact Nat.le_refl _

theorem foldl_maxStep_split {α : Type} (key : α → Nat) :
    ∀ (xs : List α) (b : α),
      ∃ l₁ l₂, b :: xs = l₁ ++ (xs.foldl (maxStep key) b) :: l₂ ∧
        (∀ y ∈ l₁, key y < key (xs.foldl (maxStep key) b)) ∧
        (∀ y ∈ l₂, key y ≤ key (xs.foldl (maxStep key) b))
  | [], b => ⟨[], [], rfl, by simp, by simp⟩
  | y :: ys, b => by
    rw [List.foldl_cons]
    rcases foldl_maxStep_split key ys (maxStep key b y) with
      ⟨m₁, m₂, hsplit, hlt, hle⟩
    by_cases hby : key b < key y
    · have hstep : maxStep key b y = y := by unfold maxStep; rw [if_pos hby]
      rw [hstep] at hsplit hlt hle ⊢
      refine ⟨b :: m₁, m₂, ?_, ?_, hle⟩
      · rw [List.cons_append, ← hsplit]
      · intro z hz
        rcases List.mem_cons.mp hz with rfl | hz
        · calc key z < key y := hby
            _ ≤ key (ys.foldl (maxStep key) y) := foldl_maxStep_ge key ys y
        · exact hlt z hz
    · have hstep : maxStep key b y = b := by unfold maxStep; rw [if_neg hby]
      rw [hstep] at hsplit hlt hle ⊢
      cases m₁ with
      | nil =>
        simp only [List.nil_append] at hsplit
        have hb : b = ys.foldl (maxStep key) b := (List.cons.injEq _ _ _ _).mp hsplit |>.1
        have hys : ys = m₂ := (List.cons.injEq _ _ _ _).mp hsplit |>.2
        refine ⟨[], y :: ys, by rw [List.nil_append, ← hb], by simp, ?_⟩
        intro z hz
        rcases List.mem_cons.mp hz with rfl | hz
        · rw [← hb]; omega
        · exact hle z (hys ▸ hz)
      | cons a m₁ =>
        have ha : a = b := ((List.cons.injEq _ _ _ _).mp hsplit).1.symm
        have hys : ys = m₁ ++ ys.foldl (maxStep key) b :: m₂ :=
          ((List.cons.injEq _ _ _ _).mp hsplit).2
        have hbr : key b < key (ys.foldl (maxStep key) b) := by
          have := hlt a (by simp)
          rwa [ha] at this
        refine ⟨b :: y :: m₁, m₂, ?_, ?_, hle⟩
        · rw [List.cons_append, List.cons_append, ← hys]
        · intro z hz
          rcases List.mem_cons.mp hz with rfl | hz
          · exact hbr
          rcases List.mem_cons.mp hz with rfl | hz
          · omega
          · exact hlt z (by simp [hz])

theorem pyMax_spec {α : Type} {key : α → Nat} {l : List α} {x : α}
    (h : pyMax key l = some x) :
    ∃ l₁ l₂, l = l₁ ++ x :: l₂ ∧ (∀ y ∈ l₁, key y < key x) ∧
      (∀ y ∈ l₂, key y ≤ key x) := by
  cases l with
  | nil => simp [pyMax] at h
  | cons b xs =>
    rw [pyMax] at h
    have hx : xs.foldl (maxStep key) b = x := by
      injection h
    rcases foldl_maxStep_split key xs b with ⟨l₁, l₂, hsplit, hlt, hle⟩
    rw [hx] at hsplit hlt hle
    exact ⟨l₁, l₂, hsplit, hlt, hle⟩

theorem pyMax_mem_le {α : Type} {key : α → Nat} {l : List α} {x : α}
    (h : pyMax key l = some x) : x ∈ l ∧ ∀ y ∈ l, key y ≤ key x := by
  rcases pyMax_spec h with ⟨l₁, l₂, hsplit, hlt, hle⟩
  subst hsplit
  constructor
  · simp
  · intro y hy
    rcases List.mem_append.mp hy with hy | hy
    · exact Nat.le_of_lt (hlt y hy)
    · rcases List.mem_cons.mp hy with rfl | hy
      · exact Nat.le_refl _
      · exact hle y hy

theorem pyMax_eq_none_iff {α : Type} {key : α → Nat} {l : List α} :
    pyMax key l = none ↔ l = [] := by
  cases l <;> simp [pyMax]

theorem firstSlash_eq_find? :
    ∀ ts : List (List Char), firstSlash ts = ts.find? (fun t => t.contains '/')
  | [] => rfl
  | t :: ts => by
    rw [firstSlash, List.find?]
    cases h : t.contains '/' with
    | true => rfl
    | false => exact firstSlash_eq_find? ts

theorem firstNonBlankLine_eq_find? :
    ∀ ls : List (List Char), firstNonBlankLine ls =
      (ls.find? (fun l => !(pyStrip l).isEmpty)).map pyStrip
  | [] => rfl
  | l :: ls => by
    rw [firstNonBlankLine]
    by_cases h : (pyStrip l).isEmpty
    · rw [if_pos h, List.find?_cons_of_neg _ (by simp [h]),
        firstNonBlankLine_eq_find? ls]
    · rw [if_neg h, List.find?_cons_of_pos _ (by simp [h])]
      rfl

theorem pyStrip_ne_nil {l : List Char} {c : Char} (hc : c ∈ l)
    (hs : pyIsSpaceChar c = false) : pyStrip l ≠ [] := by
  rw [pyStrip_eq_rdropWhile]
  intro h
  rw [List.rdropWhile_eq_nil_iff] at h
  have hcA : c ∈ l.dropWhile pyIsSpaceChar := by
    have hsplit := List.takeWhile_append_dropWhile pyIsSpaceChar l
    rcases List.mem_append.mp (by rw [hsplit]; exact hc) with htk | hdr
    · have := List.mem_takeWhile_imp htk
      rw [this] at hs; exact absurd hs (by simp)
    · exact hdr
  have := h c hcA
  rw [this] at hs; exact absurd hs (by simp)

/-! ### Shape of matcher outputs -/

theorem matchMatricula1At_shape {s g : List Char}
    (h : matchMatricula1At s = some g) :
    g ≠ [] ∧ ∀ c ∈ g, isNumPunct c = true := by
  simp only [matchMatricula1At] at h
  split at h
  · split at h
    · exact absurd h (by simp)
    · split at h
      · split at h
        · exact absurd h (by simp)
        · have hg := (Option.some.injEq _ _).mp h
          subst hg
          rename_i hne
          refine ⟨fun hnil => hne (by rw [hnil]; rfl), ?_⟩
          intro c hc
          exact List.mem_takeWhile_imp hc
      · exact absurd h (by simp)
  · exact absurd h (by simp)

theorem matchMatricula2At_shape {s g : List Char}
    (h : matchMatricula2At s = some g) :
    g ≠ [] ∧ ∀ c ∈ g, isNumPunct c = true := by
  simp only [matchMatricula2At] at h
  split at h
  · split at h
    · exact absurd h (by simp)
    · split at h
      · split at h
        · exact absurd h (by simp)
        · split at h
          · exact absurd h (by simp)
          · have hg := (Option.some.injEq _ _).mp h
            subst hg
            rename_i hne
            refine ⟨fun hnil => hne (by rw [hnil]; rfl), ?_⟩
            intro c hc
            exact List.mem_takeWhile_imp hc
      · exact absurd h (by simp)
  · exact absurd h (by simp)

theorem procTail_shape {r g : List Char} (h : procTail r = some g) :
    g ≠ [] ∧ ∀ c ∈ g, isNumPunct c = true := by
  simp only [procTail] at h
  split at h
  · have hg := (Option.some.injEq _ _).mp h
    subst hg
    constructor
    · have hlen : (((r.dropWhile pyIsSpaceChar).takeWhile isNumPunct).take 25).length =
          min 25 ((r.dropWhile pyIsSpaceChar).takeWhile isNumPunct).length := by
        simp [List.length_take]
      intro hnil
      rw [hnil] at hlen
      simp at hlen
      omega
    · intro c hc
      exact List.mem_takeWhile_imp (List.mem_of_mem_take hc)
  · exact absurd h (by simp)

theorem matchProcessoAt_shape {s g : List Char}
    (h : matchProcessoAt s = some g) :
    g ≠ [] ∧ ∀ c ∈ g, isNumPunct c = true := by
  simp only [matchProcessoAt] at h
  split at h
  · split at h
    · rename_i g1 heq1
      cases ha : altNOrd (s.drop 8) with
      | none => rw [ha] at heq1; exact absurd heq1 (by simp)
      | some r1 =>
        rw [ha] at heq1
        simp only [Option.some_bind] at heq1
        exact procTail_shape (by rw [heq1, (Option.some.injEq _ _).mp h])
    · split at h
      · rename_i g2 heq2
        cases ha : altNDot (s.drop 8) with
        | none => rw [ha] at heq2; exact absurd heq2 (by simp)
        | some r1 =>
          rw [ha] at heq2
          simp only [Option.some_bind] at heq2
          exact procTail_shape (by rw [heq2, (Option.some.injEq _ _).mp h])
      · split at h
        · rename_i g3 heq3
          cases ha : altColon (s.drop 8) with
          | none => rw [ha] at heq3; exact absurd heq3 (by simp)
          | some r1 =>
            rw [ha] at heq3
            simp only [Option.some_bind] at heq3
            exact procTail_shape (by rw [heq3, (Option.some.injEq _ _).mp h])
        · exact procTail_shape h
  · exact absurd h (by simp)

theorem matchTokenAt_shape {prev : Option Char} {s m : List Char}
    (h : matchTokenAt prev s = some m) :
    m ≠ [] ∧ ∀ c ∈ m, (isDigitChar c || c == '/') = true := by
  simp only [matchTokenAt] at h
  split at h
  · split at h
    · rename_i hds
      have hds3 : 3 ≤ (s.takeWhile isDigitChar).length := by
        simp only [Bool.and_eq_true, decide_eq_true_eq] at hds
        exact hds.1
      have hdig : ∀ c ∈ s.takeWhile isDigitChar, (isDigitChar c || c == '/') = true := by
        intro c hc
        simp [List.mem_takeWhile_imp hc]
      have hdnil : s.takeWhile isDigitChar ≠ [] := by
        intro hnil; rw [hnil] at hds3; simp at hds3
      split at h
      · split at h
        · have hm := (Option.some.injEq _ _).mp h
          subst hm
          refine ⟨by simp [hdnil], ?_⟩
          intro c hc
          rcases List.mem_append.mp hc with hc | hc
          · exact hdig c hc
          · rcases List.mem_cons.mp hc with rfl | hc
            · simp
            · simp [List.mem_takeWhile_imp hc]
        · have hm := (Option.some.injEq _ _).mp h
          subst hm
          exact ⟨hdnil, hdig⟩
      · split at h
        · have hm := (Option.some.injEq _ _).mp h
          subst hm
          exact ⟨hdnil, hdig⟩
        · exact absurd h (by simp)
    · exact absurd h (by simp)
  · exact absurd h (by simp)

theorem matchDateLongAt_head {prev : Option Char} {s m : List Char}
    (h : matchDateLongAt prev s = some m) :
    ∃ d t, m = d :: t ∧ isDigitChar d = true := by
  simp only [matchDateLongAt] at h
  split at h
  · split at h
    · split at h
      · split at h
        · split at h
          · split at h
            · rename_i hds _ _ _ _
              have hm := (Option.some.injEq _ _).mp h
              cases hdw : s.takeWhile isDigitChar with
              | nil =>
                rw [hdw] at hds
                simp at hds
              | cons d ds =>
                have hd : isDigitChar d = true :=
                  List.mem_takeWhile_imp (by rw [hdw]; simp)
                rw [hdw, List.cons_append] at hm
                exact ⟨d, _, hm.symm, hd⟩
            · exact absurd h (by simp)
          · exact absurd h (by simp)
        · exact absurd h (by simp)
      · exact absurd h (by simp)
    · exact absurd h (by simp)
  · exact absurd h (by simp)

theorem matchDDMMAt_head {prev : Option Char} {s m : List Char}
    (h : matchDDMMAt prev s = some m) :
    ∃ d t, m = d :: t ∧ isDigitChar d = true := by
  simp only [matchDDMMAt] at h
  split at h
  · split at h
    · split at h
      · rename_i hdig
        have hm := (Option.some.injEq _ _).mp h
        simp only [Bool.and_eq_true] at hdig
        exact ⟨_, _, hm.symm, hdig.1.1.1.1.1.1.1.1⟩
      · exact absurd h (by simp)
    · exact absurd h (by simp)
  · exact absurd h (by simp)

/-! ### Further helpers for the claim theorems -/

theorem firstNonBlankLine_some {ls : List (List Char)} {v : List Char}
    (h : firstNonBlankLine ls = some v) : v ≠ [] ∧ pyStrip v = v := by
  induction ls with
  | nil => simp [firstNonBlankLine] at h
  | cons l ls ih =>
    rw [firstNonBlankLine] at h
    by_cases he : (pyStrip l).isEmpty
    · rw [if_pos he] at h
      exact ih h
    · rw [if_neg he] at h
      have hv := (Option.some.injEq _ _).mp h
      subst hv
      exact ⟨fun hnil => he (by rw [hnil]; rfl), pyStrip_idem l⟩

theorem stripped_ok {g : List Char} (hne : g ≠ [])
    (hns : ∀ c ∈ g, pyIsSpaceChar c = false) :
    pyStrip g ≠ [] ∧ pyStrip (pyStrip g) = pyStrip g := by
  cases g with
  | nil => exact absurd rfl hne
  | cons c t =>
    exact ⟨pyStrip_ne_nil (List.mem_cons_self c t) (hns c (by simp)),
      pyStrip_idem _⟩

theorem tokensOf_shape {text : List Char} {t : List Char}
    (h : t ∈ tokensOf text) :
    t ≠ [] ∧ ∀ c ∈ t, pyIsSpaceChar c = false := by
  rw [tokensOf] at h
  rcases List.mem_map.mp h with ⟨⟨p, m⟩, hmem, hsnd⟩
  rcases fiAux_mem matchTokenAt text 0 0 none p m hmem with ⟨pr, tt, hf⟩
  rcases matchTokenAt_shape hf with ⟨hne, hcls⟩
  subst hsnd
  refine ⟨hne, ?_⟩
  intro c hc
  have := hcls c hc
  rcases Bool.or_eq_true_iff.mp this with hd | hs
  · exact isDigitChar_not_space hd
  · rw [beq_iff_eq] at hs
    subst hs
    exact slash_not_space

theorem dateCandidates_ok {text : List Char} {p : Nat} {s : List Char}
    (h : (p, s) ∈ dateCandidates text) : s ≠ [] ∧ pyStrip s = s := by
  rw [dateCandidates] at h
  rcases List.mem_append.mp h with hA | hB
  · rcases List.mem_map.mp hA with ⟨⟨q, m⟩, hmem, hpair⟩
    rcases fiAux_mem matchDateLongAt text 0 0 none q m hmem with ⟨pr, tt, hf⟩
    rcases matchDateLongAt_head hf with ⟨d, t, hm, hd⟩
    have hs : s = pyStrip m := congrArg Prod.snd hpair |>.symm
    subst hs
    refine ⟨?_, pyStrip_idem m⟩
    exact pyStrip_ne_nil (by rw [hm]; simp) (isDigitChar_not_space hd)
  · rcases List.mem_map.mp hB with ⟨⟨q, m⟩, hmem, hpair⟩
    rcases fiAux_mem matchDDMMAt text 0 0 none q m hmem with ⟨pr, tt, hf⟩
    rcases matchDDMMAt_head hf with ⟨d, t, hm, hd⟩
    have hs : s = pyStrip m := congrArg Prod.snd hpair |>.symm
    subst hs
    refine ⟨?_, pyStrip_idem m⟩
    exact pyStrip_ne_nil (by rw [hm]; simp) (isDigitChar_not_space hd)

/-! ### Claim C1 -/

/-- Claim C1: in the Folder Processor, any document whose processing raises
an exception yields a row with all four data fields none and the error field
carrying the description, the row order and count match the document list,
and documents that do not raise get rows with no error, so a single failure
never aborts the run. -/
theorem C1_failure_isolation (docs : List (Except (List Char) (List Char))) :
    (process_folder docs).length = docs.length ∧
    (∀ i e, docs.get? i = some (Except.error e) →
      (process_folder docs).get? i = some ⟨none, none, none, none, some e⟩) ∧
    (∀ i t, docs.get? i = some (Except.ok t) →
      (process_folder docs).get? i = some (processDocument (Except.ok t)) ∧
        (processDocument (Except.ok t)).error = none) := by
  refine ⟨by simp [process_folder], ?_, ?_⟩
  · intro i e h
    rw [process_folder, List.get?_map, h]
    rfl
  · intro i t h
    rw [process_folder, List.get?_map, h]
    exact ⟨rfl, rfl⟩

/-- Witness for C1: a concrete folder with one good and one corrupt
document; the corrupt one gets the all-none row with the error message. -/
theorem C1_failure_isolation_witness :
    (process_folder [Except.ok "Processo Nº 213/2016".data,
        Except.error "arquivo corrompido".data]).get? 1 =
      some ⟨none, none, none, none, some "arquivo corrompido".data⟩ :=
  (C1_failure_isolation _).2.1 1 _ rfl

/-! ### Claim C2 -/

theorem extract_last_date_none_iff (text : List Char) :
    extract_last_date text = none ↔ dateCandidates text = [] := by
  rw [extract_last_date]
  cases hm : pyMax (fun q => q.1) (dateCandidates text) with
  | none => simpa using pyMax_eq_none_iff.mp hm
  | some last =>
    simp only []
    constructor
    · intro h; exact absurd h (by simp)
    · intro h; rw [h] at hm; simp [pyMax] at hm

/-- Claim C2: the Last-Date Extractor returns none exactly when neither date
pattern matches anywhere in the text, otherwise it returns the pooled
candidate whose start offset is greatest; in particular the numeric date at
an earlier offset loses to the long-form date at a later offset. -/
theorem C2_last_date_argmax (text : List Char) :
    (extract_last_date text = none ↔
      noMatchBelow matchDateLongAt none text ∧
        noMatchBelow matchDDMMAt none text) ∧
    (∀ s, extract_last_date text = some s →
      ∃ p, (p, s) ∈ dateCandidates text ∧
        ∀ q ∈ dateCandidates text, q.1 ≤ p) ∧
    extract_last_date
        "Autuado em 01/02/2010 e julgado em 08 de janeiro de 2016".data =
      some "08 de janeiro de 2016".data := by
  refine ⟨?_, ?_, by decide⟩
  · rw [extract_last_date_none_iff, dateCandidates, List.append_eq_nil,
      List.map_eq_nil_iff, List.map_eq_nil_iff, pyFinditer, pyFinditer,
      fiAux_eq_nil_iff, fiAux_eq_nil_iff]
  · intro s hs
    rw [extract_last_date] at hs
    cases hm : pyMax (fun q => q.1) (dateCandidates text) with
    | none => rw [hm] at hs; exact absurd hs (by simp)
    | some last =>
      rw [hm] at hs
      have hlast := (Option.some.injEq _ _).mp hs
      rcases pyMax_mem_le hm with ⟨hmem, hle⟩
      exact ⟨last.1, by rw [← hlast]; exact hmem, hle⟩

/-- Witness for C2: on a dateless text the equivalence yields that neither
pattern matches anywhere. -/
theorem C2_last_date_argmax_witness :
    noMatchBelow matchDateLongAt none "texto sem data".data ∧
      noMatchBelow matchDDMMAt none "texto sem data".data :=
  (C2_last_date_argmax "texto sem data".data).1.mp (by decide)

/-! ### Claim C9 -/

/-- Every success of the looser matricula pattern at a position is a success
of the primary pattern at that position, with the same capture: the primary
separator class contains whitespace, and the greedy separator run stops at
the same value character. -/
theorem matchMatricula2At_sub {s g : List Char}
    (h : matchMatricula2At s = some g) : matchMatricula1At s = some g := by
  simp only [matchMatricula2At] at h
  split at h
  · rename_i hci
    split at h
    · exact absurd h (by simp)
    · rename_i c r0 hdrop
      split at h
      · rename_i hcond2
        split at h
        · exact absurd h (by simp)
        · rename_i hw
          split at h
          · exact absurd h (by simp)
          · rename_i hv
            have hg := (Option.some.injEq _ _).mp h
            have hdw : (r0.drop 4).dropWhile isSepChar =
                (r0.drop 4).dropWhile pyIsSpaceChar := by
              refine dropWhile_of_le (fun c hc => space_isSep hc) ?_
              intro c' t' hct
              have hv' : ((r0.drop 4).dropWhile pyIsSpaceChar).takeWhile
                  isNumPunct ≠ [] := fun hnil => hv (by rw [hnil]; rfl)
              rw [hct] at hv'
              rw [List.takeWhile_cons] at hv'
              by_cases hp : isNumPunct c' = true
              · exact isNumPunct_not_sep hp
              · rw [if_neg (by simp [hp])] at hv'
                exact absurd rfl hv'
            simp only [matchMatricula1At, hci, if_true, hdrop, hcond2]
            rw [hdw]
            rw [if_neg hv, hg]
      · exact absurd h (by simp)
  · exact absurd h (by simp)

theorem failsEverywhere_trans {f g : List Char → Option (List Char)}
    (hfg : ∀ s t, g s = some t → ∃ t', f s = some t') :
    ∀ l, failsEverywhere f l → failsEverywhere g l
  | [], h => by
    rw [failsEverywhere] at h ⊢
    cases hg : g [] with
    | none => rfl
    | some t =>
      rcases hfg [] t hg with ⟨t', hf⟩
      rw [h] at hf
      exact absurd hf (by simp)
  | c :: rest, h => by
    rw [failsEverywhere] at h ⊢
    refine ⟨?_, failsEverywhere_trans hfg rest h.2⟩
    cases hg : g (c :: rest) with
    | none => rfl
    | some t =>
      rcases hfg (c :: rest) t hg with ⟨t', hf⟩
      rw [h.1] at hf
      exact absurd hf (by simp)

/-- Claim C9: the secondary matricula pattern is subsumed by the primary
one, the extractor equals its primary-only variant on every text, and when
the primary search fails the fallback search fails too, so the fallback
branch never returns a value. -/
theorem C9_matricula_fallback_subsumed (text : List Char) :
    (∀ s g : List Char, matchMatricula2At s = some g →
      matchMatricula1At s = some g) ∧
    (pySearchList matchMatricula1At text = none →
      pySearchList matchMatricula2At text = none) ∧
    extract_matricula text = extractMatriculaPrimary text := by
  have hnone : pySearchList matchMatricula1At text = none →
      pySearchList matchMatricula2At text = none := by
    intro h1
    rw [pySearchList_eq_none_iff] at h1 ⊢
    exact failsEverywhere_trans
      (fun s t hg => ⟨t, matchMatricula2At_sub hg⟩) text h1
  refine ⟨fun s g => matchMatricula2At_sub, hnone, ?_⟩
  rw [extract_matricula, extractMatriculaPrimary]
  cases h1 : pySearchList matchMatricula1At text with
  | some g => rfl
  | none => rw [hnone h1]

/-- Witness for C9: on a text with no matricula at all, the primary search
fails, hence so does the fallback search. -/
theorem C9_matricula_fallback_subsumed_witness :
    pySearchList matchMatricula2At "nada por aqui".data = none :=
  (C9_matricula_fallback_subsumed "nada por aqui".data).2.1 (by decide)

/-! ### Claim C10 -/

/-- Claim C10: each of the four extractors returns none or a non-empty
string with no leading or trailing whitespace, never the empty string. -/
theorem C10_extractor_output_shape (text label : List Char) :
    optOk (find_label_value text label 300) ∧
    optOk (extract_matricula text) ∧
    optOk (extract_numero_processo text) ∧
    optOk (extract_last_date text) := by
  refine ⟨?_, ?_, ?_, ?_⟩
  · intro s hs
    simp only [find_label_value] at hs
    split at hs
    · exact absurd hs (by simp)
    · split at hs
      · rename_i v hv
        have := (Option.some.injEq _ _).mp hs
        subst this
        exact firstNonBlankLine_some hv
      · split at hs
        · exact absurd hs (by simp)
        · rename_i hne
          have := (Option.some.injEq _ _).mp hs
          subst this
          exact ⟨fun hnil => hne (by rw [hnil]; rfl), pyStrip_idem _⟩
  · intro s hs
    rw [extract_matricula] at hs
    split at hs
    · rename_i g hg
      have := (Option.some.injEq _ _).mp hs
      subst this
      rcases pySearchList_some hg with ⟨t, hf⟩
      rcases matchMatricula1At_shape hf with ⟨hne, hcls⟩
      exact stripped_ok hne (fun c hc => isNumPunct_not_space (hcls c hc))
    · split at hs
      · rename_i g hg
        have := (Option.some.injEq _ _).mp hs
        subst this
        rcases pySearchList_some hg with ⟨t, hf⟩
        rcases matchMatricula2At_shape hf with ⟨hne, hcls⟩
        exact stripped_ok hne (fun c hc => isNumPunct_not_space (hcls c hc))
      · exact absurd hs (by simp)
  · intro s hs
    rw [extract_numero_processo] at hs
    split at hs
    · rename_i g hg
      have := (Option.some.injEq _ _).mp hs
      subst this
      rcases pySearchList_some hg with ⟨t, hf⟩
      rcases matchProcessoAt_shape hf with ⟨hne, hcls⟩
      exact stripped_ok hne (fun c hc => isNumPunct_not_space (hcls c hc))
    · simp only [] at hs
      split at hs
      · exact absurd hs (by simp)
      · split at hs
        · rename_i t ht
          have := (Option.some.injEq _ _).mp hs
          subst this
          rw [firstSlash_eq_find?] at ht
          have hmem := List.mem_of_find?_eq_some ht
          rcases tokensOf_shape hmem with ⟨hne, hns⟩
          exact ⟨hne, pyStrip_of_not_space hns⟩
        · rcases pyMax_mem_le hs with ⟨hmem, _⟩
          rcases tokensOf_shape hmem with ⟨hne, hns⟩
          exact ⟨hne, pyStrip_of_not_space hns⟩
  · intro s hs
    rw [extract_last_date] at hs
    split at hs
    · exact absurd hs (by simp)
    · rename_i last hlast
      have := (Option.some.injEq _ _).mp hs
      subst this
      rcases pyMax_mem_le hlast with ⟨hmem, _⟩
      exact dateCandidates_ok (p := last.1) (by
        have : (last.1, last.2) = last := rfl
        rw [this]
        exact hmem)

/-- Witness for C10: the concrete label extraction of the running example is
non-empty and strip-stable. -/
theorem C10_extractor_output_shape_witness :
    "João Silva".data ≠ [] ∧ pyStrip "João Silva".data = "João Silva".data :=
  (C10_extractor_output_shape "Requerente: João Silva".data
    "Requerente".data).1 "João Silva".data (by decide)

/-! ### Claim C3 -/

theorem ciPrefix_cond (lbl s : List Char) :
    lbl.isPrefixOf (s.map pyLower) = ((s.take lbl.length).map pyLower == lbl) := by
  cases h : lbl.isPrefixOf (s.map pyLower) with
  | true =>
    have hp : lbl <+: s.map pyLower := List.isPrefixOf_iff_prefix.mp h
    rw [List.prefix_iff_eq_take] at hp
    rw [eq_comm, beq_iff_eq, List.map_take, ← hp]
  | false =>
    rw [eq_comm, beq_eq_false_iff_ne, ne_eq]
    intro hx
    have hp : lbl <+: s.map pyLower := by
      rw [List.prefix_iff_eq_take, ← List.map_take]
      exact hx.symm
    rw [List.isPrefixOf_iff_prefix.mpr hp] at h
    exact absurd h (by simp)

theorem strFind_eq_specFirstOcc (lbl : List Char) :
    ∀ (s : List Char) (i : Nat),
      strFindAux lbl i (s.map pyLower) = specFirstOcc lbl i s
  | [], i => by rw [List.map_nil]; rfl
  | c :: t, i => by
    have hc := ciPrefix_cond lbl (c :: t)
    rw [List.map_cons] at hc
    rw [List.map_cons, strFindAux, specFirstOcc, hc,
      strFind_eq_specFirstOcc lbl t (i + 1)]

theorem pySplitWs_words : ∀ s : List Char, ∀ w ∈ pySplitWs s,
    w ≠ [] ∧ ∀ c ∈ w, pyIsSpaceChar c = false
  | [] => by simp [pySplitWs]
  | c :: t => by
    intro w hw
    simp only [pySplitWs] at hw
    by_cases hc : pyIsSpaceChar c = true
    · rw [if_pos hc] at hw
      exact pySplitWs_words t w hw
    · rw [if_neg hc] at hw
      rcases List.mem_cons.mp hw with rfl | hw
      · refine ⟨by simp, ?_⟩
        intro d hd
        rcases List.mem_cons.mp hd with rfl | hd
        · simpa using hc
        · have := List.mem_takeWhile_imp hd
          simpa using this
      · exact pySplitWs_words (t.dropWhile fun d => !pyIsSpaceChar d) w hw
termination_by s => s.length
decreasing_by
  · simp only [List.length_cons]; omega
  · simp only [List.length_cons]
    exact Nat.lt_succ_of_le (List.dropWhile_suffix _).length_le

theorem joinSpace_head : ∀ (ws : List (List Char)) (c : Char) (w' : List Char),
    ws.head? = some (c :: w') → ∃ t, joinSpace ws = c :: t
  | [], _, _, h => by simp at h
  | [w], c, w', h => by
    have hw : w = c :: w' := by simpa using h
    exact ⟨w', by rw [joinSpace, hw]⟩
  | w :: v :: rest, c, w', h => by
    have hw : w = c :: w' := by simpa using h
    exact ⟨w' ++ ' ' :: joinSpace (v :: rest), by subst hw; rfl⟩

theorem joinSpace_ne_nil {ws : List (List Char)} {w : List Char}
    (hh : ws.head? = some w) (hw : w ≠ []) : joinSpace ws ≠ [] := by
  cases w with
  | nil => exact absurd rfl hw
  | cons c w' =>
    rcases joinSpace_head ws c w' hh with ⟨t, ht⟩
    rw [ht]
    simp

theorem joinSpace_getLast_not_space :
    ∀ ws : List (List Char),
      (∀ w ∈ ws, w ≠ [] ∧ ∀ c ∈ w, pyIsSpaceChar c = false) →
      ∀ d, (joinSpace ws).getLast? = some d → pyIsSpaceChar d = false
  | [], _, d, hd => by simp [joinSpace] at hd
  | [w], hok, d, hd => by
    have hj : joinSpace [w] = w := rfl
    rw [hj] at hd
    have hmem : d ∈ w := List.mem_of_mem_getLast? hd
    exact (hok w (by simp)).2 d hmem
  | w :: v :: rest, hok, d, hd => by
    have hj : joinSpace (w :: v :: rest) = w ++ ' ' :: joinSpace (v :: rest) :=
      rfl
    rw [hj, List.getLast?_append] at hd
    have hvne : joinSpace (v :: rest) ≠ [] :=
      joinSpace_ne_nil (by simp) (hok v (by simp)).1
    have hlast : (' ' :: joinSpace (v :: rest)).getLast? =
        (joinSpace (v :: rest)).getLast? := by
      cases hj : joinSpace (v :: rest) with
      | nil => exact absurd hj hvne
      | cons a t => rw [List.getLast?_cons_cons]
    rw [hlast] at hd
    rcases hgl : (joinSpace (v :: rest)).getLast? with _ | e
    · rw [hgl] at hd; simp [List.getLast?_eq_getLast _ hvne] at hgl
    · rw [hgl] at hd
      have hde : e = d := by simpa using hd
      subst hde
      exact joinSpace_getLast_not_space (v :: rest)
        (fun u hu => hok u (by simp [hu])) e hgl

theorem pyStrip_of_ends {l : List Char} {c : Char} (hh : l.head? = some c)
    (hcs : pyIsSpaceChar c = false)
    (hl : ∀ d, l.getLast? = some d → pyIsSpaceChar d = false) :
    pyStrip l = l := by
  cases l with
  | nil => rfl
  | cons a t =>
    have hac : a = c := by simpa using hh
    subst hac
    rw [pyStrip_eq_rdropWhile,
      List.dropWhile_cons_of_neg (by simp [hcs]),
      List.rdropWhile_eq_self_iff]
    intro hne hsp
    have := hl _ (List.getLast?_eq_getLast _ hne)
    simp [this] at hsp

theorem pyStrip_joinSpace_splitWs (s : List Char) :
    pyStrip (joinSpace (pySplitWs s)) = joinSpace (pySplitWs s) := by
  have hok : ∀ u ∈ pySplitWs s, u ≠ [] ∧ ∀ c ∈ u, pyIsSpaceChar c = false :=
    pySplitWs_words s
  cases hws : pySplitWs s with
  | nil => rfl
  | cons w rest =>
    rw [hws] at hok
    cases hw : w with
    | nil =>
      subst hw
      exact absurd rfl (hok [] (by simp)).1
    | cons c w' =>
      subst hw
      rcases joinSpace_head ((c :: w') :: rest) c w' rfl with ⟨t, ht⟩
      refine pyStrip_of_ends (c := c) (by rw [ht]; rfl) ?_ ?_
      · exact (hok (c :: w') (by simp)).2 c (by simp)
      · exact fun d hd =>
          joinSpace_getLast_not_space ((c :: w') :: rest) hok d hd

/-- Claim C3: the Label Value Extractor behaves exactly as specified: only
the first case-insensitive occurrence of the label and colon counts, a
300-character window follows it, the first non-blank line is returned
trimmed, else the whitespace-collapsed window, with none for an empty
collapse or a missing label. -/
theorem C3_label_value_algorithm (text label : List Char) :
    find_label_value text label 300 = specLabelValue text label := by
  rw [find_label_value, specLabelValue,
    strFind_eq_specFirstOcc (label.map pyLower ++ [':']) text 0]
  cases ho : specFirstOcc (label.map pyLower ++ [':']) 0 text with
  | none => rfl
  | some i =>
    simp only [firstNonBlankLine_eq_find?]
    cases hf : (pySplitlines ((text.drop
        (i + (label.map pyLower ++ [':']).length)).take 300)).find?
        (fun l => !(pyStrip l).isEmpty) with
    | some l => rfl
    | none =>
      show (if (pyStrip (joinSpace (pySplitWs _))).isEmpty then none
        else some (pyStrip (joinSpace (pySplitWs _)))) = _
      rw [pyStrip_joinSpace_splitWs]

/-! ### Claim C4 -/

/-- Claim C4: when the primary Processo pattern fails, the extractor scans
the text for fallback tokens and returns the first token containing a
slash; when no token has a slash it returns the longest token, earliest on
ties; and none when there are no tokens at all. -/
theorem C4_processo_fallback (text : List Char)
    (hp : pySearchList matchProcessoAt text = none) :
    (tokensOf text = [] → extract_numero_processo text = none) ∧
    (∀ t, (tokensOf text).find? (fun u => u.contains '/') = some t →
      extract_numero_processo text = some t) ∧
    (tokensOf text ≠ [] →
      (tokensOf text).find? (fun u => u.contains '/') = none →
      ∃ r l₁ l₂, extract_numero_processo text = some r ∧
        tokensOf text = l₁ ++ r :: l₂ ∧ (∀ y ∈ l₁, y.length < r.length) ∧
        (∀ y ∈ l₂, y.length ≤ r.length)) := by
  have he : extract_numero_processo text =
      (if (tokensOf text).isEmpty then none else
        match firstSlash (tokensOf text) with
        | some t => some t
        | none => pyMax List.length (tokensOf text)) := by
    rw [extract_numero_processo, hp]
  refine ⟨?_, ?_, ?_⟩
  · intro h0
    rw [he, if_pos (List.isEmpty_iff.mpr h0)]
  · intro t ht
    have hne : tokensOf text ≠ [] := by
      intro h0
      rw [h0] at ht
      simp at ht
    rw [he, if_neg (by simp [hne]), firstSlash_eq_find?, ht]
  · intro hne hnone
    rw [he, if_neg (by simp [hne]), firstSlash_eq_find?, hnone]
    cases hm : pyMax List.length (tokensOf text) with
    | none => exact absurd (pyMax_eq_none_iff.mp hm) hne
    | some r =>
      rcases pyMax_spec hm with ⟨l₁, l₂, hsplit, hlt, hle⟩
      exact ⟨r, l₁, l₂, rfl, hsplit, hlt, hle⟩

/-- Witness for C4 at a concrete text whose primary pattern fails and whose
token list contains a slash-bearing token. -/
theorem C4_processo_fallback_witness :
    extract_numero_processo "ab 1234 567/89 999".data = some "567/89".data :=
  (C4_processo_fallback "ab 1234 567/89 999".data (by decide)).2.1
    "567/89".data (by decide)

/-! ### Helpers for the corrected claims C5, C6, C7 and C8 -/

theorem char_toNat_ofNat {n : Nat} (h : n < 0xd800) :
    (Char.ofNat n).toNat = n := by
  simp [Char.ofNat, Char.toNat, Nat.isValidChar, h, Char.ofNatAux,
    UInt32.toNat, UInt32.ofNat', BitVec.toNat_ofNatLt]

theorem pyLower_eq (d : Char) : pyLower d =
    (if 65 ≤ d.toNat ∧ d.toNat ≤ 90 then Char.ofNat (d.toNat + 32)
     else if 192 ≤ d.toNat ∧ d.toNat ≤ 222 ∧ d.toNat ≠ 215 then
       Char.ofNat (d.toNat + 32)
     else d) := rfl

theorem pyLower_idem (c : Char) : pyLower (pyLower c) = pyLower c := by
  rw [pyLower_eq c]
  by_cases h1 : 65 ≤ c.toNat ∧ c.toNat ≤ 90
  · rw [if_pos h1, pyLower_eq]
    have ht : (Char.ofNat (c.toNat + 32)).toNat = c.toNat + 32 :=
      char_toNat_ofNat (by omega)
    rw [if_neg (by rw [ht]; omega), if_neg (by rw [ht]; omega)]
  · rw [if_neg h1]
    by_cases h2 : 192 ≤ c.toNat ∧ c.toNat ≤ 222 ∧ c.toNat ≠ 215
    · rw [if_pos h2, pyLower_eq]
      have ht : (Char.ofNat (c.toNat + 32)).toNat = c.toNat + 32 :=
        char_toNat_ofNat (by omega)
      rw [if_neg (by rw [ht]; omega), if_neg (by rw [ht]; omega)]
    · rw [if_neg h2, pyLower_eq c, if_neg h1, if_neg h2]

theorem isMonthChar_ci (c : Char) : isMonthChar (pyLower c) = isMonthChar c := by
  have he : ∀ d : Char, isMonthChar d =
      (decide (97 ≤ (pyLower d).toNat ∧ (pyLower d).toNat ≤ 122) ||
        pyLower d == 'ç' || pyLower d == 'õ' || pyLower d == 'é' ||
        pyLower d == 'ê' || pyLower d == 'á' || pyLower d == 'í' ||
        pyLower d == 'ú' || pyLower d == 'â' || pyLower d == 'ó') :=
    fun d => rfl
  rw [he, he, pyLower_idem]

theorem ciStartsWith_append {pat w t : List Char} (h : pat.length ≤ w.length) :
    ciStartsWith pat (w ++ t) = ciStartsWith pat w := by
  rw [ciStartsWith, ciStartsWith, List.take_append_eq_append_take,
    Nat.sub_eq_zero_of_le h, List.take_zero, List.append_nil]

theorem drop_append_le {n : Nat} {w t : List Char} (h : n ≤ w.length) :
    (w ++ t).drop n = w.drop n ++ t := by
  rw [List.drop_append_eq_append_drop, Nat.sub_eq_zero_of_le h, List.drop_zero]

theorem take_append_ge {n : Nat} {w t : List Char} (h : w.length ≤ n) :
    (w ++ t).take n = w ++ t.take (n - w.length) := by
  rw [List.take_append_eq_append_take, List.take_of_length_le h]

theorem splitlinesAux_newline (cur t : List Char) :
    splitlinesAux cur ('\n' :: t) =
      (if t.isEmpty then [cur.reverse] else cur.reverse :: splitlinesAux [] t) := by
  cases t with
  | nil => rfl
  | cons a t2 => rfl

theorem splitlinesAux_cons_not_boundary (cur : List Char) (c : Char)
    (t : List Char) (hc : isLineBoundaryChar c = false) :
    splitlinesAux cur (c :: t) = splitlinesAux (c :: cur) t := by
  rw [splitlinesAux.eq_def]
  split
  · rename_i x heq
    exact absurd heq (by simp)
  · rename_i x t2 heq
    have hcr : c = '\r' := by injection heq
    rw [hcr] at hc
    exact absurd hc (by decide)
  · rename_i x1 c2 t2 hne heq
    have hc2 : c = c2 := by injection heq
    have ht2 : t = t2 := by injection heq with h1 h2
    subst hc2
    subst ht2
    rw [if_neg (by simp [hc])]

theorem splitlinesAux_head : ∀ (w cur t : List Char),
    (∀ c ∈ w, isLineBoundaryChar c = false) →
    ∃ r, splitlinesAux cur (w ++ '\n' :: t) = (cur.reverse ++ w) :: r
  | [], cur, t, _ => by
    rw [List.nil_append, splitlinesAux_newline, List.append_nil]
    by_cases ht : t.isEmpty
    · exact ⟨[], by rw [if_pos ht]⟩
    · exact ⟨splitlinesAux [] t, by rw [if_neg ht]⟩
  | c :: w, cur, t, hw => by
    rw [List.cons_append,
      splitlinesAux_cons_not_boundary cur c _ (hw c (by simp))]
    rcases splitlinesAux_head w (c :: cur) t (fun d hd => hw d (by simp [hd]))
      with ⟨r, hr⟩
    refine ⟨r, by rw [hr]; congr 1; simp⟩

/-! ### Claim C6 (corrected) -/

/-- Counterexample to C6 as stated: a text containing "Matrícula: 197.942-6"
whose extractor result is the earlier, different matricula, because
`re.search` returns the leftmost match. -/
theorem C6_counterexample :
    extract_matricula "Matrícula: 123, depois Matrícula: 197.942-6".data =
      some "123".data ∧
    extract_matricula "Matrícula: 123, depois Matrícula: 197.942-6".data ≠
      some "197.942-6".data := by
  refine ⟨by decide, by decide⟩

/-- Claim C6 amended: for text of the form pre ++ "Matrícula: 197.942-6" ++
suf in which no earlier position matches the primary matricula pattern and
the occurrence is not extended on the right by another value-class
character, the Registration Number Extractor returns "197.942-6". -/
theorem C6_matricula_example_amended (pre suf : List Char)
    (h1 : ∀ i < pre.length, matchMatricula1At
      ((pre ++ "Matrícula: 197.942-6".data ++ suf).drop i) = none)
    (h2 : suf = [] ∨ ∃ c t, suf = c :: t ∧ isNumPunct c = false) :
    extract_matricula (pre ++ "Matrícula: 197.942-6".data ++ suf) =
      some "197.942-6".data := by
  have e5 : (": 197.942-6".data ++ suf).dropWhile isSepChar =
      "197.942-6".data ++ suf := by
    have h0 : ": 197.942-6".data ++ suf =
        ':' :: ' ' :: ("197.942-6".data ++ suf) := rfl
    have h0b : "197.942-6".data ++ suf = '1' :: ("97.942-6".data ++ suf) := rfl
    rw [h0, List.dropWhile_cons_of_pos (by decide),
      List.dropWhile_cons_of_pos (by decide), h0b,
      List.dropWhile_cons_of_neg (by decide)]
  have e6 : ("197.942-6".data ++ suf).takeWhile isNumPunct =
      "197.942-6".data := takeWhile_append_all (by decide) h2
  have hmatch : matchMatricula1At ("Matrícula: 197.942-6".data ++ suf) =
      some "197.942-6".data := by
    have e1 : ciStartsWith "matr".data
        ("Matrícula: 197.942-6".data ++ suf) = true := by
      rw [ciStartsWith_append (by decide)]; decide
    have e2 : ("Matrícula: 197.942-6".data ++ suf).drop 4 =
        'í' :: ("cula: 197.942-6".data ++ suf) := by
      rw [drop_append_le (by decide)]; rfl
    have e2b : (pyLower 'í' == 'i' || pyLower 'í' == 'í') = true := by decide
    have e3 : ciStartsWith "cula".data
        ("cula: 197.942-6".data ++ suf) = true := by
      rw [ciStartsWith_append (by decide)]; decide
    have e4 : ("cula: 197.942-6".data ++ suf).drop 4 =
        ": 197.942-6".data ++ suf := by
      rw [drop_append_le (by decide)]; rfl
    have e7 : ("197.942-6".data).isEmpty = false := by decide
    simp only [matchMatricula1At, e1, e2, e2b, e3, e4, e5, e6, e7,
      Bool.true_and, if_true, Bool.false_eq_true, if_false]
  simp only [List.append_assoc] at h1 ⊢
  have hsearch : pySearchList matchMatricula1At
      (pre ++ ("Matrícula: 197.942-6".data ++ suf)) =
      some "197.942-6".data := by
    rw [pySearchList_append_none h1]
    have hcons : "Matrícula: 197.942-6".data ++ suf =
        'M' :: ("atrícula: 197.942-6".data ++ suf) := rfl
    rw [hcons] at hmatch
    rw [hcons]
    show (match matchMatricula1At ('M' :: ("atrícula: 197.942-6".data ++ suf))
        with
      | some g => some g
      | none => pySearchList matchMatricula1At
          ("atrícula: 197.942-6".data ++ suf)) =
      some "197.942-6".data
    rw [hmatch]
  simp only [extract_matricula, hsearch]
  decide

/-- Witness for the amended C6 at a concrete prefix and suffix. -/
theorem C6_matricula_example_amended_witness :
    extract_matricula ("Servidor X. ".data ++ "Matrícula: 197.942-6".data ++
      " (ativa)".data) = some "197.942-6".data :=
  C6_matricula_example_amended "Servidor X. ".data " (ativa)".data (by decide)
    (Or.inr ⟨' ', "(ativa)".data, rfl, by decide⟩)

/-! ### Claim C5 (corrected) -/

/-- Counterexample to C5 as stated: a text containing "Processo Nº
213/2016" whose extractor result is the value of an earlier Processo
occurrence, because `re.search` returns the leftmost match. -/
theorem C5_counterexample :
    extract_numero_processo
        "Processo: 1111 e Processo Nº 213/2016".data = some "1111".data ∧
    extract_numero_processo
        "Processo: 1111 e Processo Nº 213/2016".data ≠
      some "213/2016".data := by
  refine ⟨by decide, by decide⟩

/-- Claim C5 amended: for text of the form pre ++ "Processo Nº 213/2016" ++
suf in which no earlier position matches the primary Processo pattern and
the occurrence is not extended on the right by another value-class
character, the Process Number Extractor returns "213/2016". -/
theorem C5_processo_example_amended (pre suf : List Char)
    (h1 : ∀ i < pre.length, matchProcessoAt
      ((pre ++ "Processo Nº 213/2016".data ++ suf).drop i) = none)
    (h2 : suf = [] ∨ ∃ c t, suf = c :: t ∧ isNumPunct c = false) :
    extract_numero_processo (pre ++ "Processo Nº 213/2016".data ++ suf) =
      some "213/2016".data := by
  have ea : altNOrd (" Nº 213/2016".data ++ suf) =
      some (" 213/2016".data ++ suf) := by
    have d1 : (" Nº 213/2016".data ++ suf).dropWhile pyIsSpaceChar =
        'N' :: 'º' :: (" 213/2016".data ++ suf) := by
      have h0 : " Nº 213/2016".data ++ suf =
          ' ' :: ('N' :: ('º' :: (" 213/2016".data ++ suf))) := rfl
      rw [h0, List.dropWhile_cons_of_pos (by decide),
        List.dropWhile_cons_of_neg (by decide)]
    have hcond : (pyLower 'N' == 'n' &&
        (pyLower 'º' == 'º' || pyLower 'º' == 'o')) = true := by decide
    simp only [altNOrd, d1, hcond, if_true]
  have ep : procTail (" 213/2016".data ++ suf) = some "213/2016".data := by
    have d2 : (" 213/2016".data ++ suf).dropWhile pyIsSpaceChar =
        "213/2016".data ++ suf := by
      have h0 : " 213/2016".data ++ suf =
          ' ' :: ("213/2016".data ++ suf) := rfl
      have h0b : "213/2016".data ++ suf = '2' :: ("13/2016".data ++ suf) := rfl
      rw [h0, List.dropWhile_cons_of_pos (by decide), h0b,
        List.dropWhile_cons_of_neg (by decide)]
    have d3 : ("213/2016".data ++ suf).takeWhile isNumPunct =
        "213/2016".data := takeWhile_append_all (by decide) h2
    simp only [procTail, d2, d3]
    decide
  have hmatch : matchProcessoAt ("Processo Nº 213/2016".data ++ suf) =
      some "213/2016".data := by
    have e1 : ciStartsWith "processo".data
        ("Processo Nº 213/2016".data ++ suf) = true := by
      rw [ciStartsWith_append (by decide)]; decide
    have e2 : ("Processo Nº 213/2016".data ++ suf).drop 8 =
        " Nº 213/2016".data ++ suf := by
      rw [drop_append_le (by decide)]; rfl
    simp only [matchProcessoAt, e1, if_true, e2, ea, Option.some_bind, ep]
  simp only [List.append_assoc] at h1 ⊢
  have hsearch : pySearchList matchProcessoAt
      (pre ++ ("Processo Nº 213/2016".data ++ suf)) =
      some "213/2016".data := by
    rw [pySearchList_append_none h1]
    have hcons : "Processo Nº 213/2016".data ++ suf =
        'P' :: ("rocesso Nº 213/2016".data ++ suf) := rfl
    rw [hcons] at hmatch
    rw [hcons]
    show (match matchProcessoAt ('P' :: ("rocesso Nº 213/2016".data ++ suf))
        with
      | some g => some g
      | none => pySearchList matchProcessoAt
          ("rocesso Nº 213/2016".data ++ suf)) =
      some "213/2016".data
    rw [hmatch]
  simp only [extract_numero_processo, hsearch]
  decide

/-- Witness for the amended C5 at a concrete prefix and suffix. -/
theorem C5_processo_example_amended_witness :
    extract_numero_processo ("Autos. ".data ++ "Processo Nº 213/2016".data ++
      " (arquivado)".data) = some "213/2016".data :=
  C5_processo_example_amended "Autos. ".data " (arquivado)".data (by decide)
    (Or.inr ⟨' ', "(arquivado)".data, rfl, by decide⟩)

/-! ### Claim C7 (corrected) -/

/-- Counterexample to C7 as stated: a text containing "Requerente: João
Silva" for which the extractor returns the value of an earlier occurrence
of the label, because `str.find` locates the first occurrence only. -/
theorem C7_counterexample :
    find_label_value "Requerente: Ana Prata\nRequerente: João Silva".data
      "Requerente".data 300 = some "Ana Prata".data ∧
    find_label_value "Requerente: Ana Prata\nRequerente: João Silva".data
      "Requerente".data 300 ≠ some "João Silva".data := by
  refine ⟨by decide, by decide⟩

/-- Claim C7 amended: for text of the form pre ++ "Requerente: João Silva"
++ suf in which the first case-insensitive occurrence of "requerente:" is
the one at offset |pre| and the value is followed by a newline or the end
of the text, the Label Value Extractor returns "João Silva". -/
theorem C7_requerente_example_amended (pre suf : List Char)
    (h1 : strFindAux "requerente:".data 0
      ((pre ++ "Requerente: João Silva".data ++ suf).map pyLower) =
      some pre.length)
    (h2 : suf = [] ∨ ∃ t, suf = '\n' :: t) :
    find_label_value (pre ++ "Requerente: João Silva".data ++ suf)
      "Requerente".data 300 = some "João Silva".data := by
  have hlbl : "Requerente".data.map pyLower ++ [':'] =
      "requerente:".data := by decide
  have hlen : ("requerente:".data).length = 11 := by decide
  have hsplit : pre ++ "Requerente: João Silva".data ++ suf =
      (pre ++ "Requerente:".data) ++ (" João Silva".data ++ suf) := by
    rw [List.append_assoc, List.append_assoc]
    rfl
  have hcount : pre.length + 11 = (pre ++ "Requerente:".data).length := by
    rw [List.length_append]
    have h11 : ("Requerente:".data).length = 11 := by decide
    rw [h11]
  have hdrop : (pre ++ "Requerente: João Silva".data ++ suf).drop
      (pre.length + 11) = " João Silva".data ++ suf := by
    rw [hsplit, hcount, List.drop_left]
  have htake : (" João Silva".data ++ suf).take 300 =
      " João Silva".data ++ suf.take 289 := by
    rw [take_append_ge (by decide)]
    have h289 : 300 - (" João Silva".data).length = 289 := by decide
    rw [h289]
  simp only [find_label_value, hlbl, hlen, h1, hdrop, htake]
  rcases h2 with rfl | ⟨t, rfl⟩
  · decide
  · have h288 : ('\n' :: t).take 289 = '\n' :: t.take 288 := rfl
    rw [h288]
    have hne : (" João Silva".data ++ '\n' :: t.take 288).isEmpty = false := by
      have h0 : " João Silva".data ++ '\n' :: t.take 288 =
          ' ' :: ("João Silva".data ++ '\n' :: t.take 288) := rfl
      rw [h0]
      rfl
    rcases splitlinesAux_head " João Silva".data [] (t.take 288)
      (by decide) with ⟨r, hr⟩
    simp only [List.reverse_nil, List.nil_append] at hr
    have hps : pySplitlines (" João Silva".data ++ '\n' :: t.take 288) =
        " João Silva".data :: r := by
      simp only [pySplitlines, hne, Bool.false_eq_true, if_false]
      exact hr
    have hstrip : pyStrip " João Silva".data = "João Silva".data := by decide
    have hfnb : firstNonBlankLine (" João Silva".data :: r) =
        some "João Silva".data := by
      simp only [firstNonBlankLine, hstrip]
      rw [if_neg (by decide)]
    rw [hps, hfnb]

/-- Witness for the amended C7 at a concrete prefix and suffix. -/
theorem C7_requerente_example_amended_witness :
    find_label_value ("Autor: A\n".data ++ "Requerente: João Silva".data ++
      "\nMatrícula: 1".data) "Requerente".data 300 =
      some "João Silva".data :=
  C7_requerente_example_amended "Autor: A\n".data "\nMatrícula: 1".data
    (by decide) (Or.inr ⟨"Matrícula: 1".data, rfl⟩)

/-! ### Claim C8 (corrected) -/

/-- Counterexample to C8 as stated: the long-form date pattern is compiled
with `re.IGNORECASE`, so a month name written in capitals is matched and
the extractor does not return none. -/
theorem C8_counterexample :
    extract_last_date "08 DE JANEIRO DE 2016".data ≠ none ∧
    extract_last_date "08 DE JANEIRO DE 2016".data =
      some "08 DE JANEIRO DE 2016".data := by
  refine ⟨by decide, by decide⟩

/-- Claim C8 amended: the month-name class of the long-form pattern is
applied case-insensitively, a character is accepted exactly when its
lowercased form is, and texts whose month names carry uppercase letters are
matched and returned rather than rejected. -/
theorem C8_month_class_amended :
    (∀ c : Char, isMonthChar (pyLower c) = isMonthChar c) ∧
    extract_last_date "08 DE JANEIRO DE 2016".data =
      some "08 DE JANEIRO DE 2016".data ∧
    extract_last_date "08 De Janeiro De 2016".data =
      some "08 De Janeiro De 2016".data :=
  ⟨isMonthChar_ci, by decide, by decide⟩

end TJRN
